import Mathlib

/-!
Verification of the Agentic-Fundamental-Analysis repository.

JavaScript strings are modelled as `List Char` (sequences of code units);
the JS string primitives used by the frontend (`trim`, `toUpperCase`,
`toLowerCase`, substring search) are embedded as executable functions on
`List Char`.  Fallible lookups return `Option`; 32-bit integer arithmetic
is carried out on `Int` with explicit reduction modulo 2^32.
-/

/-- JS whitespace test for the characters relevant to `String.prototype.trim`. -/
def jsIsWhitespace (c : Char) : Bool :=
  c = ' ' ∨ c = '\t' ∨ c = '\n' ∨ c = '\r'

/-- Embedding of `String.prototype.trim`: drop whitespace at both ends. -/
def jsTrim (s : List Char) : List Char :=
  ((s.dropWhile jsIsWhitespace).reverse.dropWhile jsIsWhitespace).reverse

/-- Embedding of `String.prototype.toUpperCase` (ASCII-relevant part). -/
def jsToUpper (s : List Char) : List Char :=
  s.map Char.toUpper

/-- Embedding of `String.prototype.toLowerCase` (ASCII-relevant part). -/
def jsToLower (s : List Char) : List Char :=
  s.map Char.toLower

/-- Embedding of `String.prototype.includes`: substring containment. -/
def jsIncludes (s pat : List Char) : Bool :=
  decide (pat <:+: s)

/- ===== src/frontend/src/components/SearchBar.tsx ===== -/

/--
Embedding of `handleSubmit` in `SearchBar.tsx`:

    if (ticker.trim()) {
      onSearch(ticker.trim().toUpperCase());
    }

The result is `some arg` when `onSearch` is invoked exactly once with
argument `arg`, and `none` when `onSearch` is not invoked (the trimmed
text being the empty string is the only falsy case for a JS string).
-/
def handleSubmit (ticker : List Char) : Option (List Char) :=
  if jsTrim ticker ≠ [] then some (jsToUpper (jsTrim ticker)) else none

/- ===== src/frontend/src/lib/imageService.ts ===== -/

/-- Reduce an integer to the 32-bit two's-complement range `[-2^31, 2^31)`,
as JS bitwise operators do. -/
def toInt32 (x : Int) : Int :=
  (x + 2 ^ 31) % 2 ^ 32 - 2 ^ 31

/-- One loop iteration of `ImageService.hashString`:
`hash = ((hash << 5) - hash) + char; hash = hash & hash;`.
`hash << 5` truncates to int32, the sum is exact double arithmetic,
and `hash & hash` truncates the result back to int32. -/
def hashStep (hash : Int) (c : Char) : Int :=
  toInt32 (toInt32 (hash * 32) - hash + c.toNat)

/-- Embedding of `ImageService.hashString`, including the final `Math.abs`. -/
def hashString (s : List Char) : Int :=
  |s.foldl hashStep 0|

/-- The 8-element color array in `ImageService.getFallbackLogo`. -/
def fallbackColors : List (List Char) :=
  ['3','b','8','2','f','6'] :: ['1','0','b','9','8','1'] ::
  ['f','5','9','e','0','b'] :: ['e','f','4','4','4','4'] ::
  ['8','b','5','c','f','6'] :: ['0','6','b','6','d','4'] ::
  ['f','9','7','3','1','6'] :: ['e','c','4','8','9','9'] :: []

/-- Embedding of `ImageService.getFallbackLogo`.  The array access
`colors[colorIndex]` is modelled as an `Option` lookup: the function
produces a URL exactly when the index is in bounds. -/
def getFallbackLogo (ticker : List Char) (size : Nat) : Option (List Char) :=
  (fallbackColors.get? ((hashString ticker % 8).toNat)).map fun backgroundColor =>
    ("https://ui-avatars.com/api/?name=".data ++ ticker ++
     "&size=".data ++ Nat.toDigits 10 size ++
     "&background=".data ++ backgroundColor ++
     "&color=ffffff&bold=true&format=png".data)

/- ===== src/frontend/src/lib/aiImageService.ts ===== -/

/-- `url.includes('token=')`, the key of the sort comparator in `getBestLogo`. -/
def hasToken (url : List Char) : Bool :=
  jsIncludes url ("token=".data)

/--
Embedding of `[...companyImages.logo_urls].sort(comparator)` in
`getBestLogo`.  The comparator returns −1 when only `a` contains
`token=`, 1 when only `b` does, and 0 otherwise; JS `Array.prototype.sort`
is stable, and a stable sort under this two-valued comparator is exactly
the stable partition: URLs containing `token=` first (in original order),
then the rest (in original order).
-/
def urlsToTry (urls : List (List Char)) : List (List Char) :=
  urls.filter hasToken ++ urls.filter (fun u => ! hasToken u)

/-- The fields of `CompanyImages` (types/images.ts) used by `getBestLogo`;
`logo_urls` is accessed with optional chaining and `fallback_logo_url`
with a truthiness check, hence the `Option` / empty-string modelling. -/
structure CompanyImages where
  logo_urls : Option (List (List Char))
  fallback_logo_url : List Char

/-- `(xs.intersperse sep).join`, the model of `params.join('&')`. -/
def joinSep (sep : List Char) (xs : List (List Char)) : List Char :=
  (xs.intersperse sep).flatten

/--
Embedding of `AIImageService.generateLogoDevUrl(domain, size, format)`:
base URL `https://img.logo.dev/` + domain, then query parameters —
`token=KEY` only when the API key exists, always `size=N`, and
`format=F` only when `F` is truthy and not `"png"`.
-/
def generateLogoDevUrl (apiKey : Option (List Char)) (domain : List Char)
    (size : Nat) (format : List Char) : List Char :=
  let params : List (List Char) :=
    (match apiKey with
     | some key => [("token=".data ++ key)]
     | none => []) ++
    [("size=".data ++ Nat.toDigits 10 size)] ++
    (if format ≠ [] ∧ format ≠ "png".data then [("format=".data ++ format)] else [])
  "https://img.logo.dev/".data ++ domain ++
    (if params ≠ [] then "?".data ++ joinSep ("&".data) params else [])

/-- Embedding of `AIImageService.generateFallbackLogo(ticker, size = 128)`:
the dedicated `ticker/` endpoint with the lowercased ticker. -/
def generateFallbackLogo (apiKey : Option (List Char)) (ticker : List Char)
    (size : Nat := 128) : List Char :=
  generateLogoDevUrl apiKey ("ticker/".data ++ jsToLower ticker) size ("png".data)

/--
Embedding of `AIImageService.getBestLogo(ticker, companyImages)`.
`valid` is the oracle for `validateImageUrl` (a network call returning a
boolean; a thrown error is caught and treated as invalid).  The guard
`companyImages?.logo_urls?.length` is truthy exactly when `companyImages`
is present, `logo_urls` is present and the list is non-empty; only inside
that branch is `fallback_logo_url` consulted (with a truthiness check).
-/
def getBestLogo (valid : List Char → Bool) (apiKey : Option (List Char))
    (ticker : List Char) (companyImages : Option CompanyImages) : List Char :=
  match companyImages with
  | some ci =>
    match ci.logo_urls with
    | some urls =>
      if urls ≠ [] then
        match (urlsToTry urls).find? valid with
        | some url => url
        | none =>
          if ci.fallback_logo_url ≠ [] then ci.fallback_logo_url
          else generateFallbackLogo apiKey ticker
      else generateFallbackLogo apiKey ticker
    | none => generateFallbackLogo apiKey ticker
  | none => generateFallbackLogo apiKey ticker

/- ===== src/frontend/src/hooks/useImageLoader.ts ===== -/

/-- The state triple returned by `useImageLoader`. -/
structure LoaderState where
  currentUrl : List Char
  isLoading : Bool
  hasError : Bool
deriving DecidableEq

/-- The asynchronous events that can reach the hook's handlers for a
non-null `url`: `img.onload`, `img.onerror`, and the 5-second timeout. -/
inductive ImgEvent where
  | load
  | error
  | timeout
deriving DecidableEq

/-- State update performed by each handler in `useImageLoader`'s effect:
`onload` sets `(url, false, false)`; `onerror` and the timeout both set
`(fallbackUrl, false, true)`. -/
def applyImgEvent (url fallbackUrl : List Char) (_s : LoaderState) :
    ImgEvent → LoaderState
  | .load => ⟨url, false, false⟩
  | .error => ⟨fallbackUrl, false, true⟩
  | .timeout => ⟨fallbackUrl, false, true⟩

/--
Embedding of `useImageLoader(url, fallbackUrl)`: for a null `url` the
effect immediately settles `(fallbackUrl, false, false)` and installs no
handlers; for a non-null `url` the state starts at
`(fallbackUrl, true, false)` (initial `useState` values after the effect's
`setIsLoading(true); setHasError(false)`) and then folds over the sequence
of handler events that fire.
-/
def runLoader (url? : Option (List Char)) (fallbackUrl : List Char)
    (events : List ImgEvent) : LoaderState :=
  match url? with
  | none => ⟨fallbackUrl, false, false⟩
  | some url => events.foldl (applyImgEvent url fallbackUrl) ⟨fallbackUrl, true, false⟩

/- ===== AnalysisResults (results view, tabs) ===== -/

/-- JS truthiness of an optional numeric field: `undefined` and `0` are
falsy, any other number is truthy. -/
def truthyNum : Option ℚ → Bool
  | none => false
  | some v => v ≠ 0

/-- The financial-data fields rendered by `FinancialTab`. -/
inductive FinField where
  | revenue
  | net_income
  | free_cash_flow
  | total_equity
  | total_debt
  | shares_outstanding
deriving DecidableEq

/-- The `financial_data` section payload: every field optional. -/
structure FinancialData where
  revenue : Option ℚ
  net_income : Option ℚ
  free_cash_flow : Option ℚ
  total_equity : Option ℚ
  total_debt : Option ℚ
  shares_outstanding : Option ℚ

/-- Field accessor for `FinancialData`. -/
def fieldGet (fd : FinancialData) : FinField → Option ℚ
  | .revenue => fd.revenue
  | .net_income => fd.net_income
  | .free_cash_flow => fd.free_cash_flow
  | .total_equity => fd.total_equity
  | .total_debt => fd.total_debt
  | .shares_outstanding => fd.shares_outstanding

/-- The fixed order in which `FinancialTab` declares its guarded rows. -/
def finFields : List FinField :=
  [.revenue, .net_income, .free_cash_flow, .total_equity, .total_debt,
   .shares_outstanding]

/-- Embedding of the row rendering in `FinancialTab`: each row is wrapped
in `{financialData.field && (...)}`, so a row appears exactly when the
field is truthy. -/
def financialRows (fd : FinancialData) : List FinField :=
  finFields.filter fun f => truthyNum (fieldGet fd f)

/-- The four risk category keys iterated by `RiskTab`. -/
inductive RiskKey where
  | concentration_risk
  | competition_risk
  | disruption_risk
  | regulatory_risk
deriving DecidableEq

/-- Declaration order of `riskCategories` in `RiskTab`. -/
def riskCategories : List RiskKey :=
  [.concentration_risk, .competition_risk, .disruption_risk, .regulatory_risk]

/-- Embedding of the card rendering in `RiskTab`: `riskData[category.key]`
is a dynamic lookup (modelled as a function to `Option ℚ`), and
`if (!score) return null` renders a card exactly when the score is truthy. -/
def riskCards (riskData : RiskKey → Option ℚ) : List RiskKey :=
  riskCategories.filter fun k => truthyNum (riskData k)

/-- JS `x.toFixed(0)` as an integer: the nearest integer to `x`, ties
resolved to the larger integer. -/
def toFixed0 (x : ℚ) : ℤ :=
  ⌊x + 1 / 2⌋

/-- JS `x.toFixed(1)` as a rational with one decimal digit: the nearest
multiple of 1/10, ties resolved upward. -/
def toFixed1 (x : ℚ) : ℚ :=
  (⌊10 * x + 1 / 2⌋ : ℚ) / 10

/-- Embedding of the confidence metric in `OverviewTab`:
`(analysis.confidence_score * 100).toFixed(0)`. -/
def overviewConfidenceDisplay (confidence_score : ℚ) : ℤ :=
  toFixed0 (confidence_score * 100)

/-- Embedding of the overall-score metric in `OverviewTab`:
`analysis.overall_score.toFixed(1)`. -/
def overviewScoreDisplay (overall_score : ℚ) : ℚ :=
  toFixed1 overall_score

/-- The three screens `AnalysisResults` can render. -/
inductive Screen where
  | spinner
  | errorScreen
  | content
deriving DecidableEq

/-- The component state of `AnalysisResults` relevant to fetching. -/
structure ResultsState (α : Type) where
  analysis : Option α
  error : Option (List Char)
  loading : Bool

/-- Initial `useState` values: `analysis = null`, `error = null`,
`loading = true`. -/
def initialResultsState (α : Type) : ResultsState α :=
  ⟨none, none, true⟩

/-- Embedding of `fetchAnalysis`: on success store the result, on a thrown
error set the error message; `finally` clears `loading` in both cases. -/
def fetchAnalysis {α ε : Type} (result : Except ε α) (st : ResultsState α) :
    ResultsState α :=
  match result with
  | .ok r => { st with analysis := some r, loading := false }
  | .error _ =>
    { st with error := some ("Failed to load analysis results".data), loading := false }

/-- Embedding of the render branches of `AnalysisResults`: a spinner while
loading, the error screen (with its back button) when `error || !analysis`,
and the analysis content otherwise. -/
def renderResults {α : Type} (st : ResultsState α) : Screen :=
  if st.loading then .spinner
  else if st.error.isSome ∨ st.analysis.isNone then .errorScreen
  else .content

/- ===== Orchestration core (spec sections 3, 4.1, 4.2, 4.4, 4.5) ===== -/

/-- Modelled from the spec: the Freshness Oracle `shouldRegenerate`
(spec section 4.1); the orchestration backend is not shipped under src/
(the repository sources present are the frontend).  Returns true when no
record exists for the ticker, true when the existing record's timestamp is
older than the configured staleness threshold, false otherwise; a pure
decision over the supplied timestamps and configuration.  Times are in
hours. -/
def shouldRegenerate (stalenessThreshold : Int) (now : Int)
    (existingRecord : Option Int) : Bool :=
  match existingRecord with
  | none => true
  | some ts => decide (now - ts > stalenessThreshold)

/-- Modelled from the spec: a `TaskSpec` (spec section 3) — a task name and
the names of the prior tasks it depends on (`RawFinancials` is the implicit
shared input and is not named among dependencies). -/
structure TaskSpec where
  name : List Char
  deps : List (List Char)
deriving DecidableEq

/-- Modelled from the spec: a `TaskResult` (spec section 3) — a validated
payload or a failure descriptor (kind + message). -/
inductive TaskResult where
  | success (payload : List Char)
  | failure (kind msg : List Char)
deriving DecidableEq

/-- Whether a task result is a success. -/
def TaskResult.isSuccess : TaskResult → Bool
  | .success _ => true
  | .failure _ _ => false

/-- Modelled from the spec: the per-run state machine of the Orchestrator
(spec section 4.4). -/
inductive RunState where
  | Pending
  | Running
  | Completed
  | PartiallyCompleted
  | Failed
deriving DecidableEq

/-- Modelled from the spec: the persisted `AnalysisRecord` (spec sections 3
and 4.5) — one named section per successful task, flagged incomplete when
the run only partially completed. -/
structure AnalysisRecord where
  ticker : List Char
  sections : List (List Char × List Char)
  incomplete : Bool
deriving DecidableEq

/-- Modelled from the spec: the Result Assembler (spec section 4.5) — maps
every successful `TaskResult` payload into its named section and flags the
record when the run state was `PartiallyCompleted`. -/
def assemble (ticker : List Char) (results : List (List Char × TaskResult))
    (st : RunState) : AnalysisRecord :=
  { ticker := ticker
    sections := results.filterMap fun r =>
      match r.2 with
      | .success p => some (r.1, p)
      | .failure _ _ => none
    incomplete := st = RunState.PartiallyCompleted }

/-- The outcome of one orchestrated run: final state and, when the run
produced one, the assembled record. -/
structure RunOutcome where
  state : RunState
  record : Option AnalysisRecord
deriving DecidableEq

/-- Modelled from the spec: the final state of a run (spec section 4.4) —
`Failed` when the `RawFinancials` fetch fails, `Failed` when the terminal
synthesis task fails, `Completed` when every task succeeds, and
`PartiallyCompleted` otherwise.  `exec` is the per-run settled outcome of
each task (tasks are identified by name). -/
def runState (taskNames : List (List Char)) (terminal : List Char)
    (fetch : Except (List Char) (List Char)) (exec : List Char → TaskResult) :
    RunState :=
  match fetch with
  | .error _ => .Failed
  | .ok _ =>
    if (exec terminal).isSuccess then
      if taskNames.all fun t => (exec t).isSuccess then .Completed
      else .PartiallyCompleted
    else .Failed

/-- Modelled from the spec: a full run (spec sections 4.4 and 4.5) — the
Result Assembler produces an `AnalysisRecord` only for a `Completed` or
`PartiallyCompleted` run; a `Failed` run produces none. -/
def runAnalysis (taskNames : List (List Char)) (terminal : List Char)
    (ticker : List Char) (fetch : Except (List Char) (List Char))
    (exec : List Char → TaskResult) : RunOutcome :=
  let st := runState taskNames terminal fetch exec
  { state := st
    record :=
      if st = RunState.Completed ∨ st = RunState.PartiallyCompleted then
        some (assemble ticker (taskNames.map fun t => (t, exec t)) st)
      else none }

/-- Modelled from the spec: persistence (spec section 6) — one
`AnalysisRecord` per ticker, latest wins; a run without a record leaves the
store unchanged. -/
def persistRun (store : List (List Char × AnalysisRecord))
    (outcome : RunOutcome) : List (List Char × AnalysisRecord) :=
  match outcome.record with
  | some r => (r.ticker, r) :: store.filter fun p => p.1 ≠ r.ticker
  | none => store

/-- Modelled from the spec: a task is ready relative to the set of names
already scheduled when every declared dependency is among them. -/
def readyPred (done : List (List Char)) (t : TaskSpec) : Bool :=
  t.deps.all fun d => decide (d ∈ done)

/-- Modelled from the spec: the batching loop behind `topologicalBatches`
(spec section 4.2).  Each round takes, in declaration order, every
remaining task all of whose dependencies are already scheduled; if no task
is ready while some remain, the configuration is cyclic or dangling and
the construction fails with a configuration error (`none`). -/
def batchesAux : Nat → List (List Char) → List TaskSpec →
    Option (List (List TaskSpec))
  | 0, _, remaining => if remaining = [] then some [] else none
  | fuel + 1, done, remaining =>
    if remaining = [] then some []
    else if remaining.filter (readyPred done) = [] then none
    else
      match batchesAux fuel (done ++ (remaining.filter (readyPred done)).map TaskSpec.name)
          (remaining.filter fun t => ! readyPred done t) with
      | some rest => some (remaining.filter (readyPred done) :: rest)
      | none => none

/-- Modelled from the spec: `topologicalBatches()` of the Task Registry
(spec section 4.2), returning the batch sequence or a configuration error. -/
def topologicalBatches (registry : List TaskSpec) : Option (List (List TaskSpec)) :=
  batchesAux registry.length [] registry

/-- Correctness predicate for a batch sequence: relative to the names
`done` already satisfied, every task of the first batch has all its
dependencies in `done`, no task of a batch depends on a task of the same
batch, and the rest is correct relative to `done` extended with the first
batch's names.  With `done = []` this says every dependency is satisfied
by strictly earlier batches (`RawFinancials` is the implicit input and is
never named among dependencies). -/
def batchesValid (done : List (List Char)) : List (List TaskSpec) → Prop
  | [] => True
  | b :: rest =>
    (∀ t ∈ b, ∀ d ∈ t.deps, d ∈ done) ∧
    (∀ t ∈ b, ∀ u ∈ b, u.name ∉ t.deps) ∧
    batchesValid (done ++ b.map TaskSpec.name) rest

/-- The known task set of spec section 4.2: a knowledge pre-check, the
data-gathering tasks (ratio computation depending on financial-statement
extraction), the qualitative tasks (valuation depending on the financial
and ratio outputs), and a final synthesis task depending on every other
task. -/
def demoRegistry : List TaskSpec := [
  ⟨"knowledge".data, []⟩,
  ⟨"financial".data, []⟩,
  ⟨"ratio".data, ["financial".data]⟩,
  ⟨"business".data, []⟩,
  ⟨"risk".data, []⟩,
  ⟨"valuation".data, ["financial".data, "ratio".data]⟩,
  ⟨"management".data, []⟩,
  ⟨"industry".data, []⟩,
  ⟨"synthesis".data, ["knowledge".data, "financial".data, "ratio".data,
    "business".data, "risk".data, "valuation".data, "management".data,
    "industry".data]⟩]

/-- The batch sequence `topologicalBatches` produces for `demoRegistry`. -/
def demoBatches : List (List TaskSpec) := [
  [⟨"knowledge".data, []⟩, ⟨"financial".data, []⟩, ⟨"business".data, []⟩,
   ⟨"risk".data, []⟩, ⟨"management".data, []⟩, ⟨"industry".data, []⟩],
  [⟨"ratio".data, ["financial".data]⟩],
  [⟨"valuation".data, ["financial".data, "ratio".data]⟩],
  [⟨"synthesis".data, ["knowledge".data, "financial".data, "ratio".data,
    "business".data, "risk".data, "valuation".data, "management".data,
    "industry".data]⟩]]

/- ===== Theorems ===== -/

/-- A successful `find?` splits the list into a prefix of elements failing
the predicate, the found element, and a tail. -/
theorem findFirst_of_find_eq_some {α : Type} (p : α → Bool) :
    ∀ {l : List α} {a : α}, l.find? p = some a →
      ∃ s t, l = s ++ a :: t ∧ (∀ x ∈ s, p x = false) ∧ p a = true := by
  intro l
  induction l with
  | nil => intro a h; simp [List.find?] at h
  | cons x xs ih =>
    intro a h
    by_cases hx : p x = true
    · rw [List.find?_cons_of_pos _ hx] at h
      cases h
      exact ⟨[], xs, rfl, by simp, hx⟩
    · rw [List.find?_cons_of_neg _ hx] at h
      obtain ⟨s, t, hl, hs, ha⟩ := ih h
      exact ⟨x :: s, t, by rw [hl]; rfl,
        by intro y hy; rcases List.mem_cons.mp hy with h1 | h1
           · rw [h1]; simpa using hx
           · exact hs y h1, ha⟩

/-- Folding non-`load` events always lands in the error/fallback state. -/
theorem foldl_no_load (url fallbackUrl : List Char) :
    ∀ (evs : List ImgEvent) (s : LoaderState), ImgEvent.load ∉ evs → evs ≠ [] →
      evs.foldl (applyImgEvent url fallbackUrl) s = ⟨fallbackUrl, false, true⟩ := by
  intro evs
  induction evs with
  | nil => intro s _ hne; exact absurd rfl hne
  | cons e rest ih =>
    intro s hmem _
    have he : e ≠ ImgEvent.load := fun h => hmem (h ▸ List.mem_cons_self e rest)
    have hrest : ImgEvent.load ∉ rest := fun h => hmem (List.mem_cons_of_mem e h)
    have hstep : applyImgEvent url fallbackUrl s e = ⟨fallbackUrl, false, true⟩ := by
      cases e with
      | load => exact absurd rfl he
      | error => rfl
      | timeout => rfl
    rcases eq_or_ne rest [] with hr | hr
    · subst hr; simpa [List.foldl] using hstep
    · simp only [List.foldl, hstep]
      exact ih _ hrest hr

/-- C8: `useImageLoader` settles with the fallback and no error for a null
`url`; if no load event ever fires but some error/timeout event does, it
settles with the fallback and `hasError = true`; after a final successful
load it settles with `(url, false, false)`; and `currentUrl` can equal a
`url` distinct from the fallback only if a load event fired. -/
theorem useImageLoader_settles (url fallbackUrl : List Char) (events : List ImgEvent) :
    (runLoader none fallbackUrl events = ⟨fallbackUrl, false, false⟩) ∧
    (ImgEvent.load ∉ events → events ≠ [] →
      runLoader (some url) fallbackUrl events = ⟨fallbackUrl, false, true⟩) ∧
    (∀ pre, events = pre ++ [ImgEvent.load] →
      runLoader (some url) fallbackUrl events = ⟨url, false, false⟩) ∧
    (url ≠ fallbackUrl → (runLoader (some url) fallbackUrl events).currentUrl = url →
      ImgEvent.load ∈ events) := by
  refine ⟨rfl, ?_, ?_, ?_⟩
  · intro hmem hne
    exact foldl_no_load url fallbackUrl events _ hmem hne
  · intro pre hpre
    subst hpre
    simp [runLoader, List.foldl_append, applyImgEvent]
  · intro hne hcur
    by_contra hmem
    rcases eq_or_ne events [] with he | he
    · subst he
      exact hne hcur.symm
    · have := foldl_no_load url fallbackUrl events ⟨fallbackUrl, true, false⟩ hmem he
      rw [runLoader] at hcur
      rw [this] at hcur
      exact hne hcur.symm

/-- Witness for C8: a timeout with no load event settles on the fallback
with an error. -/
theorem useImageLoader_settles_witness :
    ImgEvent.load ∉ [ImgEvent.timeout] ∧
    runLoader (some ['u']) ['f'] [ImgEvent.timeout] = ⟨['f'], false, true⟩ :=
  ⟨by decide,
   (useImageLoader_settles ['u'] ['f'] [ImgEvent.timeout]).2.1 (by decide) (by decide)⟩

/-- Splitting helper: a list whose middle component carries a variable
part is prefixed by the fused concrete prefix. -/
theorem prefix_of_concat (A B C x X : List Char) (h : A ++ B = C) :
    C ++ x <+: A ++ (B ++ x) ++ X :=
  ⟨X, by rw [← h]; simp [List.append_assoc]⟩

/-- C9: `AIImageService.getBestLogo` tries candidates with every
`token=`-bearing URL before every other URL, returns the first candidate
the validation oracle accepts, falls back to a truthy
`fallback_logo_url` when no candidate validates, and for an absent or
empty `logo_urls` (or absent `companyImages`) returns the generated
logo.dev `ticker/` endpoint URL for the lowercased ticker. -/
theorem getBestLogo_order_and_fallback (valid : List Char → Bool)
    (apiKey : Option (List Char)) (ticker : List Char)
    (urls : List (List Char)) (fbu : List Char) :
    (∃ p q, urlsToTry urls = p ++ q ∧ (∀ u ∈ p, hasToken u = true) ∧
      (∀ u ∈ q, hasToken u = false)) ∧
    (∀ u, urls ≠ [] → (urlsToTry urls).find? valid = some u →
      getBestLogo valid apiKey ticker (some ⟨some urls, fbu⟩) = u ∧ valid u = true ∧
      ∃ s t, urlsToTry urls = s ++ u :: t ∧ ∀ x ∈ s, valid x = false) ∧
    (urls ≠ [] → (urlsToTry urls).find? valid = none → fbu ≠ [] →
      getBestLogo valid apiKey ticker (some ⟨some urls, fbu⟩) = fbu) ∧
    (getBestLogo valid apiKey ticker none = generateFallbackLogo apiKey ticker 128 ∧
     getBestLogo valid apiKey ticker (some ⟨none, fbu⟩) =
       generateFallbackLogo apiKey ticker 128 ∧
     getBestLogo valid apiKey ticker (some ⟨some [], fbu⟩) =
       generateFallbackLogo apiKey ticker 128) ∧
    ("https://img.logo.dev/ticker/".data ++ jsToLower ticker <+:
      generateFallbackLogo apiKey ticker 128) := by
  refine ⟨?_, ?_, ?_, ⟨rfl, rfl, by simp [getBestLogo]⟩, ?_⟩
  · refine ⟨urls.filter hasToken, urls.filter (fun u => ! hasToken u), rfl, ?_, ?_⟩
    · intro u hu
      exact (List.mem_filter.mp hu).2
    · intro u hu
      simpa using (List.mem_filter.mp hu).2
  · intro u hne hfind
    obtain ⟨s, t, hl, hs, hu⟩ := findFirst_of_find_eq_some valid hfind
    exact ⟨by simp [getBestLogo, hne, hfind], hu, s, t, hl, hs⟩
  · intro hne hfind hfbu
    simp [getBestLogo, hne, hfind, hfbu]
  · show _ <+: generateLogoDevUrl apiKey ("ticker/".data ++ jsToLower ticker) 128 "png".data
    rw [generateLogoDevUrl.eq_def]
    exact prefix_of_concat _ _ _ _ _ (by decide)

/-- Witness for C9: with two candidate URLs (only the second carrying
`token=`) and an oracle accepting everything, the token-bearing URL is
tried first and returned. -/
theorem getBestLogo_order_and_fallback_witness :
    ("t?token=1".data :: [] ≠ ([] : List (List Char))) ∧
    getBestLogo (fun _ => true) none ("AAPL".data)
      (some ⟨some ["plain".data, "t?token=1".data], []⟩) = "t?token=1".data := by
  refine ⟨by decide, ?_⟩
  have h := (getBestLogo_order_and_fallback (fun _ => true) none ("AAPL".data)
    ["plain".data, "t?token=1".data] []).2.1 ("t?token=1".data) (by decide) (by decide)
  exact h.1

/-- C4: `SearchBar.handleSubmit` invokes `onSearch` exactly once with the
trimmed, uppercased ticker when the trimmed text is non-empty, and does not
invoke it when the trimmed text is empty. -/
theorem handleSubmit_trim_upper (ticker : List Char) :
    (jsTrim ticker ≠ [] → handleSubmit ticker = some (jsToUpper (jsTrim ticker))) ∧
    (jsTrim ticker = [] → handleSubmit ticker = none) := by
  constructor <;> intro h <;> simp [handleSubmit, h]

/-- Witness for C4 at the concrete input `"  aapl "`. -/
theorem handleSubmit_trim_upper_witness :
    jsTrim ("  aapl ".data) ≠ [] ∧
    handleSubmit ("  aapl ".data) = some ("AAPL".data) := by
  refine ⟨by decide, ?_⟩
  have h := (handleSubmit_trim_upper ("  aapl ".data)).1 (by decide)
  rw [h]
  decide

/-- C10: `ImageService.getFallbackLogo` is well-defined and deterministic:
`hashString` is always non-negative (the 32-bit hash passes through
`Math.abs`), the color index `hashString(ticker) % 8` is a valid index into
the 8-element color array, and hence the function — a pure function of its
arguments — always returns a URL. -/
theorem getFallbackLogo_total_deterministic (ticker : List Char) (size : Nat) :
    0 ≤ hashString ticker ∧
    (hashString ticker % 8).toNat < fallbackColors.length ∧
    ∃ url, getFallbackLogo ticker size = some url := by
  have hnonneg : 0 ≤ hashString ticker := abs_nonneg _
  have hmod : (0 : Int) ≤ hashString ticker % 8 := Int.emod_nonneg _ (by norm_num)
  have hlt : hashString ticker % 8 < 8 := Int.emod_lt_of_pos _ (by norm_num)
  have hidx : (hashString ticker % 8).toNat < fallbackColors.length := by
    have : (hashString ticker % 8).toNat < 8 := by omega
    simpa [fallbackColors] using this
  refine ⟨hnonneg, hidx, ?_⟩
  have hc : fallbackColors.get? ((hashString ticker % 8).toNat) =
      some (fallbackColors.get ⟨(hashString ticker % 8).toNat, hidx⟩) :=
    List.get?_eq_get hidx
  exact ⟨_, by unfold getFallbackLogo; rw [hc]; rfl⟩

/-- C5: missing section fields are omitted from the rendered output — a
risk category absent from `risk_assessment` gets no card in `RiskTab`, and
`FinancialTab` renders a row only for fields that are present. -/
theorem partial_sections_omitted (riskData : RiskKey → Option ℚ) (fd : FinancialData) :
    (∀ k, riskData k = none → k ∉ riskCards riskData) ∧
    (∀ f, f ∈ financialRows fd → ∃ v, fieldGet fd f = some v) := by
  constructor
  · intro k hk hmem
    have ht := (List.mem_filter.mp hmem).2
    rw [hk] at ht
    simp [truthyNum] at ht
  · intro f hf
    have ht := (List.mem_filter.mp hf).2
    cases hv : fieldGet fd f with
    | none => rw [hv] at ht; simp [truthyNum] at ht
    | some v => exact ⟨v, rfl⟩

/-- Witness for C5: with `concentration_risk` missing and only `revenue`
present, no concentration card renders and the revenue row has a value. -/
theorem partial_sections_omitted_witness :
    (RiskKey.concentration_risk ∉ riskCards
      (fun k => match k with
        | RiskKey.concentration_risk => none
        | _ => some 5)) ∧
    (∃ v, fieldGet ⟨some 3, none, none, none, none, none⟩ FinField.revenue = some v) := by
  constructor
  · exact (partial_sections_omitted
      (fun k => match k with
        | RiskKey.concentration_risk => none
        | _ => some 5)
      ⟨some 3, none, none, none, none, none⟩).1 RiskKey.concentration_risk rfl
  · exact (partial_sections_omitted
      (fun k => match k with
        | RiskKey.concentration_risk => none
        | _ => some 5)
      ⟨some 3, none, none, none, none, none⟩).2 FinField.revenue (by decide)

/-- C6: when `analysisApi.getResults` throws, `fetchAnalysis` leaves
`analysis` null, sets a non-null error message, ends loading, and the
component renders the error screen (with its back button) instead of any
analysis content. -/
theorem fetchAnalysis_error_screen {α ε : Type} (e : ε) :
    (fetchAnalysis (Except.error e) (initialResultsState α)).analysis = none ∧
    (fetchAnalysis (Except.error e) (initialResultsState α)).error =
      some ("Failed to load analysis results".data) ∧
    (fetchAnalysis (Except.error e) (initialResultsState α)).loading = false ∧
    renderResults (fetchAnalysis (Except.error e) (initialResultsState α)) =
      Screen.errorScreen :=
  ⟨rfl, rfl, rfl, rfl⟩

/-- C7: `OverviewTab` shows the confidence as `confidence_score * 100`
rounded to the nearest integer, a value in `[0, 100]` for a confidence in
`[0, 1]`, and the overall score to one decimal place, a value in
`[0, 10]` for a score in `[0, 10]`; both displays are exactly these
rounding functions with no clamping applied. -/
theorem overviewTab_display_bounds (c s : ℚ) (hc0 : 0 ≤ c) (hc1 : c ≤ 1)
    (hs0 : 0 ≤ s) (hs1 : s ≤ 10) :
    overviewConfidenceDisplay c = round (c * 100) ∧
    0 ≤ overviewConfidenceDisplay c ∧ overviewConfidenceDisplay c ≤ 100 ∧
    overviewScoreDisplay s = (round (10 * s) : ℚ) / 10 ∧
    0 ≤ overviewScoreDisplay s ∧ overviewScoreDisplay s ≤ 10 := by
  have hcr : overviewConfidenceDisplay c = round (c * 100) := by
    rw [round_eq]; rfl
  have hclow : (0 : ℤ) ≤ ⌊c * 100 + 1 / 2⌋ := by
    rw [Int.le_floor]
    push_cast
    linarith
  have hchigh : ⌊c * 100 + 1 / 2⌋ ≤ 100 := by
    have : ⌊c * 100 + 1 / 2⌋ < 101 := by
      rw [Int.floor_lt]
      push_cast
      linarith
    omega
  have hsr : overviewScoreDisplay s = (round (10 * s) : ℚ) / 10 := by
    rw [round_eq]; rfl
  have hslow : (0 : ℤ) ≤ ⌊10 * s + 1 / 2⌋ := by
    rw [Int.le_floor]
    push_cast
    linarith
  have hshigh : ⌊10 * s + 1 / 2⌋ ≤ 100 := by
    have : ⌊10 * s + 1 / 2⌋ < 101 := by
      rw [Int.floor_lt]
      push_cast
      linarith
    omega
  refine ⟨hcr, hclow, hchigh, hsr, ?_, ?_⟩
  · show (0 : ℚ) ≤ (⌊10 * s + 1 / 2⌋ : ℚ) / 10
    have : ((0 : ℤ) : ℚ) ≤ (⌊10 * s + 1 / 2⌋ : ℚ) := Int.cast_le.mpr hslow
    push_cast at this
    linarith
  · show (⌊10 * s + 1 / 2⌋ : ℚ) / 10 ≤ 10
    have : (⌊10 * s + 1 / 2⌋ : ℚ) ≤ ((100 : ℤ) : ℚ) := Int.cast_le.mpr hshigh
    push_cast at this
    linarith

/-- Witness for C7 at confidence 0.82 and overall score 7.3. -/
theorem overviewTab_display_bounds_witness :
    (0 : ℚ) ≤ 41 / 50 ∧ (41 : ℚ) / 50 ≤ 1 ∧
    0 ≤ overviewConfidenceDisplay (41 / 50) ∧
    overviewConfidenceDisplay (41 / 50) ≤ 100 ∧
    0 ≤ overviewScoreDisplay (73 / 10) ∧ overviewScoreDisplay (73 / 10) ≤ 10 := by
  have h := overviewTab_display_bounds (41 / 50) (73 / 10)
    (by norm_num) (by norm_num) (by norm_num) (by norm_num)
  exact ⟨by norm_num, by norm_num, h.2.1, h.2.2.1, h.2.2.2.2.1, h.2.2.2.2.2⟩

/-- Any batch sequence `batchesAux` returns is valid relative to its
starting `done` set, provided no remaining task is already named in `done`
and remaining task names are distinct. -/
theorem batchesAux_valid :
    ∀ (fuel : Nat) (done : List (List Char)) (remaining : List TaskSpec)
      (bs : List (List TaskSpec)),
      (∀ t ∈ remaining, t.name ∉ done) →
      (remaining.map TaskSpec.name).Nodup →
      batchesAux fuel done remaining = some bs →
      batchesValid done bs := by
  intro fuel
  induction fuel with
  | zero =>
    intro done remaining bs _ _ h
    by_cases hr : remaining = []
    · subst hr
      simp [batchesAux] at h
      subst h
      trivial
    · simp [batchesAux, hr] at h
  | succ fuel ih =>
    intro done remaining bs hnd hnodup h
    by_cases hr : remaining = []
    · subst hr
      simp [batchesAux] at h
      subst h
      trivial
    · by_cases hready : remaining.filter (readyPred done) = []
      · simp [batchesAux, hr, hready] at h
      · rw [batchesAux] at h
        rw [if_neg hr, if_neg hready] at h
        cases hrec : batchesAux fuel
            (done ++ (remaining.filter (readyPred done)).map TaskSpec.name)
            (remaining.filter fun t => ! readyPred done t) with
        | none => rw [hrec] at h; exact absurd h (by simp)
        | some rest =>
          rw [hrec] at h
          have hbs : bs = remaining.filter (readyPred done) :: rest := by
            cases h; rfl
          subst hbs
          have hdeps : ∀ t ∈ remaining.filter (readyPred done),
              ∀ d ∈ t.deps, d ∈ done := by
            intro t ht d hd
            have hp : readyPred done t = true := List.of_mem_filter ht
            have := List.all_eq_true.mp hp d hd
            exact of_decide_eq_true this
          refine ⟨hdeps, ?_, ?_⟩
          · intro t ht u hu hdep
            have hu' : u ∈ remaining := List.mem_of_mem_filter hu
            exact hnd u hu' (hdeps t ht u.name hdep)
          · apply ih _ _ rest _ _ hrec
            · intro t ht
              have ht' : t ∈ remaining := (List.mem_filter.mp ht).1
              have htn : (! readyPred done t) = true := (List.mem_filter.mp ht).2
              rw [List.mem_append]
              rintro (hin | hin)
              · exact hnd t ht' hin
              · obtain ⟨u, hu, hun⟩ := List.mem_map.mp hin
                have hu' : u ∈ remaining := (List.mem_filter.mp hu).1
                have hup : readyPred done u = true := (List.mem_filter.mp hu).2
                have : u = t := List.inj_on_of_nodup_map hnodup hu' ht' hun
                rw [this] at hup
                rw [hup] at htn
                exact absurd htn (by simp)
            · have hsub : List.Sublist (remaining.filter fun t => ! readyPred done t)
                  remaining :=
                List.filter_sublist _
              exact hnodup.sublist (hsub.map TaskSpec.name)

/-- In a valid batch sequence every dependency of a task in batch `i` is
either already in `done` or named by a strictly earlier batch. -/
theorem batchesValid_deps_earlier :
    ∀ (bs : List (List TaskSpec)) (done : List (List Char)),
      batchesValid done bs →
      ∀ (i : Nat) (t : TaskSpec), t ∈ bs.getD i [] → ∀ d ∈ t.deps,
        d ∈ done ∨ ∃ j, j < i ∧ d ∈ (bs.getD j []).map TaskSpec.name := by
  intro bs
  induction bs with
  | nil =>
    intro done _ i t ht
    simp [List.getD] at ht
  | cons b rest ih =>
    intro done hv i t ht d hd
    match i with
    | 0 =>
      exact Or.inl (hv.1 t (by simpa using ht) d hd)
    | i' + 1 =>
      have ht' : t ∈ rest.getD i' [] := by simpa using ht
      rcases ih (done ++ b.map TaskSpec.name) hv.2.2 i' t ht' d hd with h | ⟨j, hj, hmem⟩
      · rcases List.mem_append.mp h with h1 | h1
        · exact Or.inl h1
        · exact Or.inr ⟨0, Nat.succ_pos _, by simpa using h1⟩
      · exact Or.inr ⟨j + 1, Nat.succ_lt_succ hj, by simpa using hmem⟩

/-- In a valid batch sequence no two tasks of the same batch have a
dependency relationship. -/
theorem batchesValid_batch_indep :
    ∀ (bs : List (List TaskSpec)) (done : List (List Char)),
      batchesValid done bs →
      ∀ (i : Nat) (t u : TaskSpec), t ∈ bs.getD i [] → u ∈ bs.getD i [] →
        u.name ∉ t.deps := by
  intro bs
  induction bs with
  | nil =>
    intro done _ i t u ht
    simp [List.getD] at ht
  | cons b rest ih =>
    intro done hv i t u ht hu
    match i with
    | 0 =>
      exact hv.2.1 t (by simpa using ht) u (by simpa using hu)
    | i' + 1 =>
      exact ih (done ++ b.map TaskSpec.name) hv.2.2 i' t u
        (by simpa using ht) (by simpa using hu)

/-- C1: for a valid Task Registry configuration (distinct task names; a
cyclic or dangling configuration makes `topologicalBatches` return the
configuration error instead of a sequence), every batch in the returned
sequence contains only tasks whose declared dependencies are named in
strictly earlier batches (dependencies never name `RawFinancials`, which
is the implicit input satisfying data-only tasks), and no two tasks within
the same batch have a dependency relationship to each other. -/
theorem topologicalBatches_valid_batches (registry : List TaskSpec)
    (bs : List (List TaskSpec))
    (hnames : (registry.map TaskSpec.name).Nodup)
    (hbatches : topologicalBatches registry = some bs) :
    (∀ i t, t ∈ bs.getD i [] → ∀ d ∈ t.deps,
      ∃ j, j < i ∧ d ∈ (bs.getD j []).map TaskSpec.name) ∧
    (∀ i t u, t ∈ bs.getD i [] → u ∈ bs.getD i [] → u.name ∉ t.deps) := by
  have hv := batchesAux_valid registry.length [] registry bs (by simp) hnames hbatches
  constructor
  · intro i t ht d hd
    rcases batchesValid_deps_earlier bs [] hv i t ht d hd with h | h
    · simp at h
    · exact h
  · intro i t u ht hu
    exact batchesValid_batch_indep bs [] hv i t u ht hu

/-- Witness for C1: the known task set of spec section 4.2 produces a
batch sequence satisfying both properties. -/
theorem topologicalBatches_valid_batches_witness :
    (demoRegistry.map TaskSpec.name).Nodup ∧
    topologicalBatches demoRegistry = some demoBatches ∧
    (∀ i t, t ∈ demoBatches.getD i [] → ∀ d ∈ t.deps,
      ∃ j, j < i ∧ d ∈ (demoBatches.getD j []).map TaskSpec.name) :=
  ⟨by decide, by decide,
   (topologicalBatches_valid_batches demoRegistry demoBatches
     (by decide) (by decide)).1⟩

/-- C2: when the terminal synthesis task fails, the run ends `Failed`, no
`AnalysisRecord` is produced, and persisting the run leaves the store
unchanged. -/
theorem runAnalysis_terminal_failure_no_persist
    (taskNames : List (List Char)) (terminal ticker : List Char)
    (fetch : Except (List Char) (List Char)) (exec : List Char → TaskResult)
    (store : List (List Char × AnalysisRecord)) (kind msg : List Char)
    (hfail : exec terminal = TaskResult.failure kind msg) :
    (runAnalysis taskNames terminal ticker fetch exec).state = RunState.Failed ∧
    (runAnalysis taskNames terminal ticker fetch exec).record = none ∧
    persistRun store (runAnalysis taskNames terminal ticker fetch exec) = store := by
  have hstate : runState taskNames terminal fetch exec = RunState.Failed := by
    cases fetch with
    | error e => rfl
    | ok v => simp [runState, hfail, TaskResult.isSuccess]
  have hrec : (runAnalysis taskNames terminal ticker fetch exec).record = none := by
    simp [runAnalysis, hstate]
  exact ⟨by simp [runAnalysis, hstate], hrec, by simp [persistRun, hrec]⟩

/-- Witness for C2: a run whose synthesis task fails leaves a one-record
store untouched and ends `Failed`. -/
theorem runAnalysis_terminal_failure_no_persist_witness :
    ((fun n => if n = "synthesis".data then
        TaskResult.failure ("SchemaViolation".data) ("bad".data)
      else TaskResult.success ("ok".data)) ("synthesis".data) =
        TaskResult.failure ("SchemaViolation".data) ("bad".data)) ∧
    (runAnalysis ["financial".data, "synthesis".data] ("synthesis".data)
      ("ACME".data) (Except.ok ("raw".data))
      (fun n => if n = "synthesis".data then
        TaskResult.failure ("SchemaViolation".data) ("bad".data)
      else TaskResult.success ("ok".data))).state = RunState.Failed ∧
    persistRun [(("ACME".data), ⟨"ACME".data, [], false⟩)]
      (runAnalysis ["financial".data, "synthesis".data] ("synthesis".data)
        ("ACME".data) (Except.ok ("raw".data))
        (fun n => if n = "synthesis".data then
          TaskResult.failure ("SchemaViolation".data) ("bad".data)
        else TaskResult.success ("ok".data))) =
      [(("ACME".data), ⟨"ACME".data, [], false⟩)] := by
  have h := runAnalysis_terminal_failure_no_persist
    ["financial".data, "synthesis".data] ("synthesis".data) ("ACME".data)
    (Except.ok ("raw".data))
    (fun n => if n = "synthesis".data then
      TaskResult.failure ("SchemaViolation".data) ("bad".data)
    else TaskResult.success ("ok".data))
    [(("ACME".data), ⟨"ACME".data, [], false⟩)]
    ("SchemaViolation".data) ("bad".data) (by decide)
  exact ⟨by decide, h.1, h.2.2⟩

/-- C3: `shouldRegenerate` returns true when no record exists; with a
24-hour threshold it returns true for a record timestamped 25 hours before
now and false for one timestamped 1 hour before now. -/
theorem shouldRegenerate_freshness (now : Int) :
    shouldRegenerate 24 now none = true ∧
    shouldRegenerate 24 now (some (now - 25)) = true ∧
    shouldRegenerate 24 now (some (now - 1)) = false := by
  refine ⟨rfl, ?_, ?_⟩
  · simp only [shouldRegenerate, decide_eq_true_eq]
    omega
  · simp only [shouldRegenerate, decide_eq_false_iff_not]
    omega
